import Mathlib

/-!
Verification of the httpseverywhere rewrite engine (getlantern/httpseverywhere).

Shallow embedding of the current engine iteration: the runtime rewriter
(`rewrite`, `rewriteWithRuleset`, `reverse` in the engine file) and the index
builder (`addRuleset`, `normalizeTo` in deserializer.go), together with the
raw record types (Ruleset, Target, Exclusion, Rule).

Go strings are modelled as lists of runes (Lean `Char`), Go maps and radix
trees as association lists, and compiled regular expressions abstractly as a
pair of a match predicate and a replacement function, since the regexp
engine is an external library.
-/

namespace Httpse

/-! ## Go string helpers -/

/-- Auxiliary recursion for `goReplace`: the first argument is the length of
the remaining input, which makes the recursion structural (a match consumes
`old.length ≥ 1` runes, a non-match consumes one rune). -/
def goReplaceN (old new : List Char) : Nat → List Char → List Char
  | 0, s => s
  | _ + 1, [] => []
  | n + 1, c :: t =>
    if old.isPrefixOf (c :: t) ∧ 0 < old.length then
      new ++ goReplaceN old new n ((c :: t).drop old.length)
    else
      c :: goReplaceN old new n t

/-- Embedding of Go `strings.Replace(s, old, new, -1)` over rune lists:
replace every non-overlapping occurrence of `old`, scanning left to right.
The Go function inserts `new` between runes when `old` is empty; that case is
never exercised here (all patterns are non-empty), and the embedding steps
one rune when the guard fails, which only differs for empty `old`. -/
def goReplace (old new s : List Char) : List Char :=
  goReplaceN old new s.length s

/-- Occurrence test for a two-rune pattern: `hasPair a b s` holds when the
rune `a` immediately followed by the rune `b` occurs somewhere in `s`.
Used to reason about the patterns handled by the template normalization. -/
def hasPair (a b : Char) : List Char → Bool
  | x :: y :: t => (x == a && y == b) || hasPair a b (y :: t)
  | _ => false

/-- Embedding of Go `strings.HasPrefix(s, pre)`. -/
def hasPrefixGo (s pre : String) : Bool := pre.data.isPrefixOf s.data

/-- Embedding of Go `strings.HasSuffix(s, suf)`. -/
def hasSuffixGo (s suf : String) : Bool := suf.data.isSuffixOf s.data

/-- Embedding of Go `strings.TrimPrefix(s, pre)`. -/
def trimPrefixGo (s pre : String) : String :=
  if hasPrefixGo s pre then String.mk (s.data.drop pre.data.length) else s

/-- Embedding of Go `strings.TrimSuffix(s, suf)`. -/
def trimSuffixGo (s suf : String) : String :=
  if hasSuffixGo s suf then String.mk (s.data.take (s.data.length - suf.data.length)) else s

/-- Embedding of Go `strconv.Itoa(i)` as a rune list (decimal digits). -/
def itoa (i : Nat) : List Char := Nat.toDigits 10 i

/-! ## Raw record types (the gob/XML data model) -/

/-- Target is the target host for a given rule (raw record). -/
structure Target where
  Host : String
deriving DecidableEq

/-- Exclusion is a regular-expression pattern to ignore when processing a
rule set (raw record). -/
structure Exclusion where
  Pattern : String
deriving DecidableEq

/-- Rule is a rule to apply when processing a URL (raw record).  The Go
field `From` holds the source pattern text and `To` the replacement text. -/
structure Rule where
  From : String
  To : String
deriving DecidableEq

/-- Ruleset is the raw rule-set record: default-off flag, platform tag,
targets, exclusions and rules, in bundle order. -/
structure Ruleset where
  Off : String
  Platform : String
  Target : List Target
  Exclusion : List Exclusion
  Rule : List Rule
deriving DecidableEq

/-! ## Compiled types

A compiled regular expression is abstract: the engine only ever calls
`MatchString` (unanchored find) and `ReplaceAllString` (replace every match
of the pattern in the url using a template), so it is modelled as that pair
of functions. -/

/-- Abstract model of a compiled `regexp.Regexp`: `MatchString url` and
`ReplaceAllString url template`. -/
structure regex where
  MatchString : String → Bool
  ReplaceAllString : String → String → String

/-- Compiled rule: the compiled from-pattern and the (normalized)
replacement template.  The Go fields are named `from` and `to`, which are
reserved words in Lean, hence `fromRe` and `to'`. -/
structure rule where
  fromRe : regex
  to' : String

/-- Compiled exclusion: just the compiled pattern. -/
structure exclusion where
  pattern : regex

/-- Compiled rule set: ordered exclusions and ordered rules. -/
structure ruleset where
  exclusion : List exclusion
  rule : List rule

/-! ## Deserializer / index builder (deserializer.go) -/

/-- The pattern text `"$" + strconv.Itoa(i)` built by the `normalizeTo`
loop. -/
def dollarPat (i : Nat) : List Char := '$' :: itoa i

/-- The replacement text built by the `normalizeTo` loop: a dollar sign,
an opening brace, the digits of `i`, and a closing brace. -/
def bracePat (i : Nat) : List Char := '$' :: '{' :: (itoa i ++ ['}'])

/-- Embedding of `normalizeTo` (deserializer.go lines 112-125): first
replace the two-rune pattern for group 1 by its braced form, then do the
same for every group index `i` from 1 to 9 (the Go loop `for i := 1; i < 10;
i++`, embedded as a fold over `[1, ..., 9]`). -/
def normalizeTo (toStr : String) : String :=
  let normalizedTo := goReplace (dollarPat 1) (bracePat 1) toStr.data
  String.mk ((List.range' 1 9).foldl
    (fun acc i => goReplace (dollarPat i) (bracePat i) acc) normalizedTo)

/-- The exclusion-compilation loop of `addRuleset` (deserializer.go lines
66-75): compile each pattern in order; the first failure aborts (the Go code
returns the unchanged tree).  `compile` is the abstract model of
`regexp.Compile`, returning `none` exactly when compilation fails. -/
def compileExclusions (compile : String → Option regex) :
    List Exclusion → Option (List exclusion)
  | [] => some []
  | e :: rest =>
    match compile e.Pattern with
    | none => none
    | some pat => (compileExclusions compile rest).map (fun l => exclusion.mk pat :: l)

/-- The rule-compilation loop of `addRuleset` (deserializer.go lines 77-87):
compile each from-pattern in order and normalize the replacement; the first
failure aborts.  Note the current deserializer does not filter rules by
their replacement text. -/
def compileRules (compile : String → Option regex) :
    List Rule → Option (List rule)
  | [] => some []
  | r :: rest =>
    match compile r.From with
    | none => none
    | some f => (compileRules compile rest).map (fun l => rule.mk f (normalizeTo r.To) :: l)

/-- Embedding of `isPrefixTarget` (deserializer.go). -/
def isPrefixTarget (target : Target) : Bool := hasPrefixGo target.Host "*"

/-- Embedding of `isSuffixTarget` (deserializer.go). -/
def isSuffixTarget (target : Target) : Bool := hasSuffixGo target.Host "*"

/-- Insertion into a Go map or radix tree, modelled on association lists:
the new binding replaces any previous binding of the same key. -/
def mapInsert (m : List (String × ruleset)) (k : String) (v : ruleset) :
    List (String × ruleset) :=
  (k, v) :: m.filter (fun kv => kv.1 ≠ k)

/-! ## Rewrite engine (current engine iteration) -/

/-- The copy loop of `reverse`: `for _, r := range input { runes[n] = r; n++ }`,
writing the input runes at successive indices of the slice `dst`. -/
def copyLoop (src : List Char) (dst : List Char) (n : Nat) : List Char :=
  match src with
  | [] => dst
  | c :: rest => copyLoop rest (dst.set n c) (n + 1)

/-- One iteration of the swap loop of `reverse`:
`runes[i], runes[n-1-i] = runes[n-1-i], runes[i]` (both right-hand sides are
read before either write). -/
def swapIter (l : List Char) (i : Nat) : List Char :=
  (l.set i (l.getD (l.length - 1 - i) (Char.ofNat 0))).set
    (l.length - 1 - i) (l.getD i (Char.ofNat 0))

/-- The swap loop of `reverse`: `for i := 0; i < n/2; i++ { swap }`. -/
def swapLoop (l : List Char) : List Char :=
  (List.range (l.length / 2)).foldl swapIter l

/-- Embedding of `reverse` (engine file lines 123-140).  Mirrors each slice
operation of the Go code: `make([]rune, len(input)+1)` (zero runes);
`runes[0] = '.'`; the reslice `runes = runes[1:]`, which leaves the dot
sentinel written at index 0 outside the slice window; the copy loop; the
reslice `runes = runes[0:n]`; the in-place swap loop.  (The Go allocation
size is the byte length of the input, an unobservable detail of scratch
space; runes are modelled as `Char`.) -/
def reverse (input : String) : String :=
  let runes := List.replicate (input.data.length + 1) (Char.ofNat 0)
  let runes := runes.set 0 '.'
  let runes := runes.drop 1
  let runes := copyLoop input.data runes 0
  let runes := runes.take input.data.length
  String.mk (swapLoop runes)

/-- Modelled from the spec: the prefix-wildcard query string the spec (and
the comment inside `reverse`) describe — the byte reversal of the host with
a prepended dot sentinel, i.e. the reversal of the dot followed by the
host.  Declared only to be compared against `reverse`, which is the
embedding of the source. -/
def reverseSpec (host : String) : String :=
  String.mk (('.' :: host.data).reverse)

/-- The relevant fields of a parsed `net/url.URL`: the scheme, the host, and
the canonical string form returned by the `String()` method (`Str`). -/
structure URL where
  Scheme : String
  Host : String
  Str : String

/-- The engine state: the two published indexes.  The Go struct stores them
behind atomic values; a single loaded snapshot is modelled.  The plain map
is an association list with unique keys; the radix tree is an association
list queried by longest key that is a prefix of the query. -/
structure httpse where
  plainTargets : List (String × ruleset)
  wildcardTargets : List (String × ruleset)

/-- Go map probe `m[k]` on the plain-targets association list. -/
def mapFind (m : List (String × ruleset)) (k : String) : Option ruleset :=
  (m.find? (fun kv => kv.1 = k)).map (fun kv => kv.2)

/-- Embedding of the radix-tree query `Root().LongestPrefix(q)`: among the
stored keys that are a prefix of `q`, return the value of the longest one
(keys in a radix tree are unique, so ties cannot arise). -/
def longestPrefixLookup (tree : List (String × ruleset)) (q : String) :
    Option ruleset :=
  ((tree.filter (fun kv => kv.1.data.isPrefixOf q.data)).foldl
    (fun best kv =>
      match best with
      | none => some kv
      | some b => if b.1.data.length < kv.1.data.length then some kv else some b)
    none).map (fun kv => kv.2)

/-- The exclusion loop of `rewriteWithRuleset`: report whether some
exclusion pattern matches the URL string (the Go loop returns early at the
first match). -/
def exclusionLoop (u : String) : List exclusion → Bool
  | [] => false
  | e :: rest => if e.pattern.MatchString u then true else exclusionLoop u rest

/-- The rule loop of `rewriteWithRuleset`: the first rule whose from-pattern
matches produces the rewritten URL; later rules are not consulted. -/
def ruleLoop (u : String) : List rule → String × Bool
  | [] => ("", false)
  | r :: rest =>
    if r.fromRe.MatchString u then (r.fromRe.ReplaceAllString u r.to', true)
    else ruleLoop u rest

/-- Embedding of `rewriteWithRuleset` (engine file lines 108-121): take the
URL string form, return the no-rewrite verdict if any exclusion matches,
otherwise apply the first matching rule. -/
def rewriteWithRuleset (fullURL : URL) (r : ruleset) : String × Bool :=
  let url := fullURL.Str
  if exclusionLoop url r.exclusion then ("", false)
  else ruleLoop url r.rule

/-- Embedding of `rewrite` (engine file lines 74-104).  The second
component of the result is the list of timing samples sent on `statsCh` by
the deferred send, identified by their `host` field (which the Go code sets
to `url.String()`); the measured duration is wall-clock time, outside the
model.  The deferred send is registered after the scheme guard, so the
non-http path emits nothing.  The three lookups keep the order and the
fall-through structure of the source: a plain hit whose rule-set evaluation
misses falls through to the prefix-wildcard lookup, then to the
suffix-wildcard lookup, whose rule-set result is returned as is. -/
def rewrite (h : httpse) (u : URL) : (String × Bool) × List String :=
  if u.Scheme ≠ "http" then (("", false), [])
  else
    let plainRes : Option (String × Bool) :=
      match mapFind h.plainTargets u.Host with
      | some val =>
        let rb := rewriteWithRuleset u val
        if rb.2 then some rb else none
      | none => none
    let prefixRes : Option (String × Bool) :=
      match longestPrefixLookup h.wildcardTargets (reverse u.Host) with
      | some val =>
        let rb := rewriteWithRuleset u val
        if rb.2 then some rb else none
      | none => none
    let suffixRes : Option (String × Bool) :=
      match longestPrefixLookup h.wildcardTargets u.Host with
      | some val => some (rewriteWithRuleset u val)
      | none => none
    (((plainRes.orElse (fun _ => prefixRes)).orElse (fun _ => suffixRes)).getD
      ("", false), [u.Str])

/-- The body of the target loop of `addRuleset` (deserializer.go lines
89-100): classify one target (suffix wildcard first, as in the source) and
insert the compiled rule set under the corresponding key, threading the
`(plain map, wildcard tree)` pair. -/
def addTarget (rsCopy : ruleset)
    (acc : List (String × ruleset) × List (String × ruleset)) (target : Target) :
    List (String × ruleset) × List (String × ruleset) :=
  if isSuffixTarget target then
    (acc.1, mapInsert acc.2 (trimSuffixGo target.Host "*") rsCopy)
  else if isPrefixTarget target then
    (acc.1, mapInsert acc.2 (reverse (trimPrefixGo target.Host "*")) rsCopy)
  else
    (mapInsert acc.1 target.Host rsCopy, acc.2)

/-- Embedding of `addRuleset` (deserializer.go lines 50-102).  The Go code
mutates the plain map in place and returns the updated wildcard tree; the
embedding returns both.  Disabled and mixedcontent-only records are skipped;
a compile failure in any exclusion or rule discards the whole record; each
target is then classified and inserted. -/
def addRuleset (compile : String → Option regex) (rs : Ruleset)
    (plains : List (String × ruleset)) (wildcards : List (String × ruleset)) :
    List (String × ruleset) × List (String × ruleset) :=
  if 0 < rs.Off.length then (plains, wildcards)
  else if rs.Platform = "mixedcontent" then (plains, wildcards)
  else
    match compileExclusions compile rs.Exclusion with
    | none => (plains, wildcards)
    | some excls =>
      match compileRules compile rs.Rule with
      | none => (plains, wildcards)
      | some rules =>
        rs.Target.foldl (addTarget ⟨excls, rules⟩) (plains, wildcards)

/-! ## Stats channel (engine file `newEmpty`, `readTimings`) -/

/-- A timing sample: the host string (the engine sends the full URL string)
and the measured duration in nanoseconds. -/
structure timing where
  host : String
  dur : Nat
deriving DecidableEq

/-- The possible immediate outcomes of submitting a sample to the stats
channel when no receiver is currently ready: the sample is placed in the
buffer, or the sample is discarded, or the sender blocks. -/
inductive SendOutcome
  | delivered (buffer : List timing)
  | dropped (buffer : List timing)
  | blocked
deriving DecidableEq

/-- Embedding of the Go send statement on `statsCh` in `rewrite`, following
the Go channel semantics for a send with no surrounding select/default when
no receiver is ready: the send completes immediately exactly when the
channel buffer has room, and otherwise the sending goroutine blocks.  The
sample is never discarded. -/
def chanSend (cap : Nat) (buffer : List timing) (t : timing) : SendOutcome :=
  if buffer.length < cap then SendOutcome.delivered (buffer ++ [t])
  else SendOutcome.blocked

/-- The capacity of `statsCh` as created by `newEmpty` (engine file line
50): `make(chan *timing)` is an unbuffered channel, capacity zero. -/
def statsChCap : Nat := 0

/-! ## Concrete fixtures for witnesses and counterexamples -/

/-- A compiled pattern that matches every string; its replace-all returns
the template text. -/
def regexAll : regex := ⟨fun _ => true, fun _ t => t⟩

/-- A compiled pattern that matches no string. -/
def regexNone : regex := ⟨fun _ => false, fun s _ => s⟩

/-- A rule set with no exclusions and no rules: evaluating it never
rewrites. -/
def rsEmpty : ruleset := ⟨[], []⟩

/-- A rule set whose single rule matches every URL string and rewrites it
to a fixed string. -/
def rsAlways : ruleset := ⟨[], [⟨regexAll, "https://rewritten"⟩]⟩

/-- Engine state with a plain entry for the host and a wildcard entry whose
key is the reversed host. -/
def stC3 : httpse := ⟨[("a.com", rsEmpty)], [("moc.a", rsAlways)]⟩

/-- An http URL for the host of `stC3`. -/
def urlC3 : URL := ⟨"http", "a.com", "http://a.com"⟩

/-- A compile model in which every pattern compiles (to the match-all
pattern). -/
def compileOk : String → Option regex := fun _ => some regexAll

/-- A compile model in which no pattern compiles. -/
def compileFail : String → Option regex := fun _ => none

/-- An active record with one plain target, one exclusion and no rules. -/
def rsBadExclusion : Ruleset := ⟨"", "", [⟨"x.com"⟩], [⟨"("⟩], []⟩

/-- An active record with one plain target and one rule whose replacement
text is exactly the string rejected by the no-downgrade policy. -/
def rsHttpTo : Ruleset := ⟨"", "", [⟨"downgrade.com"⟩], [], [⟨"^https:", "http:"⟩]⟩

/-! ## Unfolding equations for `goReplace` -/

/-- The fuel argument of `goReplaceN` is irrelevant as long as it bounds the
input length. -/
theorem goReplaceN_fuel (old new : List Char) :
    ∀ (n m : Nat) (s : List Char), s.length ≤ n → s.length ≤ m →
      goReplaceN old new n s = goReplaceN old new m s := by
  intro n
  induction n with
  | zero =>
    intro m s hn _
    have hs : s = [] := List.eq_nil_of_length_eq_zero (Nat.le_zero.mp hn)
    subst hs
    cases m <;> rfl
  | succ n ih =>
    intro m s hn hm
    match s, m with
    | [], 0 => rfl
    | [], m + 1 => rfl
    | c :: t, m + 1 =>
      rw [goReplaceN, goReplaceN]
      by_cases h : old.isPrefixOf (c :: t) ∧ 0 < old.length
      · rw [if_pos h, if_pos h]
        have hlen : ((c :: t).drop old.length).length ≤ n := by
          simp only [List.length_drop, List.length_cons]
          simp only [List.length_cons] at hn
          omega
        have hlen' : ((c :: t).drop old.length).length ≤ m := by
          simp only [List.length_drop, List.length_cons]
          simp only [List.length_cons] at hm
          omega
        rw [ih m _ hlen hlen']
      · rw [if_neg h, if_neg h]
        simp only [List.length_cons] at hn hm
        rw [ih m t (by omega) (by omega)]

/-- Unfolding equation for `goReplace` on a non-empty input. -/
theorem goReplace_cons (old new : List Char) (c : Char) (t : List Char) :
    goReplace old new (c :: t) =
      if old.isPrefixOf (c :: t) ∧ 0 < old.length then
        new ++ goReplace old new ((c :: t).drop old.length)
      else c :: goReplace old new t := by
  show goReplaceN old new (t.length + 1) (c :: t) = _
  rw [goReplaceN]
  split
  · rw [goReplace]
    rw [goReplaceN_fuel old new t.length ((c :: t).drop old.length).length
      ((c :: t).drop old.length) (by simp; omega) (Nat.le_refl _)]
  · rfl

/-! ## Loop lemmas for rule-set evaluation -/

theorem exclusionLoop_eq_true (u : String) (l : List exclusion)
    (h : ∃ e ∈ l, e.pattern.MatchString u = true) : exclusionLoop u l = true := by
  induction l with
  | nil => obtain ⟨e, he, _⟩ := h; cases he
  | cons e rest ih =>
    rw [exclusionLoop]
    obtain ⟨e', he', hm⟩ := h
    rcases List.mem_cons.mp he' with rfl | hmem
    · rw [if_pos hm]
    · split
      · rfl
      · exact ih ⟨e', hmem, hm⟩

theorem exclusionLoop_eq_false (u : String) (l : List exclusion)
    (h : ∀ e ∈ l, e.pattern.MatchString u = false) : exclusionLoop u l = false := by
  induction l with
  | nil => rfl
  | cons e rest ih =>
    rw [exclusionLoop, if_neg]
    · exact ih fun e' he' => h e' (List.mem_cons_of_mem e he')
    · simp [h e (List.mem_cons_self e rest)]

theorem ruleLoop_eq_find (u : String) (l : List rule) :
    ruleLoop u l =
      match l.find? (fun r => r.fromRe.MatchString u) with
      | some r => (r.fromRe.ReplaceAllString u r.to', true)
      | none => ("", false) := by
  induction l with
  | nil => rfl
  | cons r rest ih =>
    rw [ruleLoop, List.find?]
    by_cases hm : r.fromRe.MatchString u
    · rw [if_pos hm, hm]
    · rw [if_neg hm, Bool.eq_false_iff.mpr hm, ih]

/-- Claim C1: for every matched rule set and URL string, if any exclusion
pattern matches the URL string then rule-set evaluation returns the empty
no-rewrite verdict, and it does so for any list of rules whatsoever, so no
rule is applied even if the from-pattern of some rule would match. -/
theorem exclusion_precedence (R : ruleset) (u : URL)
    (h : ∃ e ∈ R.exclusion, e.pattern.MatchString u.Str = true) :
    rewriteWithRuleset u R = ("", false) ∧
      ∀ rules : List rule, rewriteWithRuleset u ⟨R.exclusion, rules⟩ = ("", false) := by
  have key : ∀ rules : List rule, rewriteWithRuleset u ⟨R.exclusion, rules⟩ = ("", false) := by
    intro rules
    rw [rewriteWithRuleset, if_pos (exclusionLoop_eq_true u.Str R.exclusion h)]
  exact ⟨key R.rule, key⟩

theorem exclusion_precedence_witness :
    rewriteWithRuleset ⟨"http", "a.com", "http://a.com"⟩
      ⟨[⟨regexAll⟩], [⟨regexAll, "https://rewritten"⟩]⟩ = ("", false) :=
  (exclusion_precedence ⟨[⟨regexAll⟩], [⟨regexAll, "https://rewritten"⟩]⟩
    ⟨"http", "a.com", "http://a.com"⟩
    ⟨⟨regexAll⟩, List.mem_singleton_self _, rfl⟩).1

/-- Claim C2: on a URL string on which no exclusion of the matched rule set
matches, evaluation returns the replace-all of the first rule whose
from-pattern matches (with the true flag), and later rules are not
consulted; if no rule matches it returns the empty no-rewrite verdict.  The
first matching rule is expressed through `List.find?`. -/
theorem first_rule_wins (R : ruleset) (u : URL)
    (h : ∀ e ∈ R.exclusion, e.pattern.MatchString u.Str = false) :
    rewriteWithRuleset u R =
      match R.rule.find? (fun r => r.fromRe.MatchString u.Str) with
      | some r => (r.fromRe.ReplaceAllString u.Str r.to', true)
      | none => ("", false) := by
  rw [rewriteWithRuleset, if_neg, ruleLoop_eq_find]
  simp [exclusionLoop_eq_false u.Str R.exclusion h]

theorem first_rule_wins_witness :
    rewriteWithRuleset ⟨"http", "a.com", "http://a.com"⟩
      ⟨[], [⟨regexNone, "https://skipped"⟩, ⟨regexAll, "https://first"⟩,
        ⟨regexAll, "https://second"⟩]⟩ = ("https://first", true) :=
  (first_rule_wins
    ⟨[], [⟨regexNone, "https://skipped"⟩, ⟨regexAll, "https://first"⟩,
      ⟨regexAll, "https://second"⟩]⟩
    ⟨"http", "a.com", "http://a.com"⟩
    (fun e he => absurd he (List.not_mem_nil e))).trans rfl

/-- Claim C4: for every parsed URL whose scheme is not the lowercase string
http, `rewrite` returns the empty no-rewrite verdict with an empty timing
trace, and its result does not depend on the engine state at all (so no
index lookup can have influenced it). -/
theorem scheme_guard (h : httpse) (u : URL) (hs : u.Scheme ≠ "http") :
    rewrite h u = (("", false), []) ∧ ∀ h' : httpse, rewrite h u = rewrite h' u := by
  constructor
  · rw [rewrite, if_pos hs]
  · intro h'
    rw [rewrite, if_pos hs, rewrite, if_pos hs]

theorem scheme_guard_witness :
    rewrite stC3 ⟨"https", "a.com", "https://a.com"⟩ = (("", false), []) :=
  (scheme_guard stC3 ⟨"https", "a.com", "https://a.com"⟩ (by decide)).1

/-- Claim C3 (counterexample): the plain-index verdict is not final.  In
`stC3` the exact-host lookup selects `rsEmpty`, whose evaluation produces no
rewrite, yet `rewrite` goes on to the prefix-wildcard lookup and returns a
rewrite instead of the empty no-rewrite verdict the claim demands. -/
theorem plain_verdict_not_final_counterexample :
    mapFind stC3.plainTargets urlC3.Host = some rsEmpty ∧
      rewriteWithRuleset urlC3 rsEmpty = ("", false) ∧
      (rewrite stC3 urlC3).1 = ("https://rewritten", true) :=
  ⟨rfl, rfl, rfl⟩

/-- Claim C3 (amended): when the exact-host lookup selects a rule set whose
evaluation produces no rewrite, the engine behaves exactly as if the plain
index had no entry at all: the prefix-wildcard and suffix-wildcard lookups
are attempted as fallbacks and decide the result. -/
theorem plain_miss_falls_through (st : httpse) (u : URL) (R : ruleset)
    (h1 : mapFind st.plainTargets u.Host = some R)
    (h2 : rewriteWithRuleset u R = ("", false)) :
    rewrite st u = rewrite ⟨[], st.wildcardTargets⟩ u := by
  by_cases hs : u.Scheme ≠ "http"
  · rw [rewrite, if_pos hs, rewrite, if_pos hs]
  · rw [rewrite, if_neg hs, rewrite, if_neg hs]
    have h0 : mapFind ([] : List (String × ruleset)) u.Host = none := rfl
    simp [h1, h2, h0]

theorem plain_miss_falls_through_witness :
    rewrite stC3 urlC3 = rewrite ⟨[], stC3.wildcardTargets⟩ urlC3 :=
  plain_miss_falls_through stC3 urlC3 rsEmpty rfl rfl

/-- Claim C8: the code contradicts its own comment.  On the failing input
the `reverse` of the engine returns the bare byte reversal of the host: the
dot sentinel written at index 0 of the backing array is discarded by the
immediately following reslice, so the result differs from the documented
query string (the reversal of the host with a prepended dot sentinel,
`reverseSpec`). -/
theorem reverse_drops_sentinel :
    reverse "example.com" = "moc.elpmaxe" ∧
      reverseSpec "example.com" = "moc.elpmaxe." ∧
      reverse "example.com" ≠ reverseSpec "example.com" :=
  ⟨by decide, by decide, by decide⟩

/-- Claim C9 (counterexample): at a concrete sample, the send on the stats
channel of `newEmpty` blocks instead of dropping the sample: the channel is
unbuffered (capacity zero) and the send in `rewrite` has no select with a
default branch. -/
theorem stats_send_blocked_counterexample :
    chanSend statsChCap [] ⟨"http://a.com", 5⟩ = SendOutcome.blocked := rfl

/-- Claim C9 (amended): submitting a timing sample from the rewrite path
always blocks the sender until the single consumer is ready to receive —
whatever the buffered samples are — and no sample is ever dropped, because
`statsCh` is created unbuffered and the send is unconditional. -/
theorem stats_send_always_blocks (buffer : List timing) (t : timing) :
    chanSend statsChCap buffer t = SendOutcome.blocked := by
  rw [chanSend, if_neg]
  simp [statsChCap]

/-! ## Index-builder lemmas -/

theorem compileExclusions_eq_none (compile : String → Option regex)
    (l : List Exclusion) (h : ∃ e ∈ l, compile e.Pattern = none) :
    compileExclusions compile l = none := by
  induction l with
  | nil => obtain ⟨e, he, _⟩ := h; cases he
  | cons e rest ih =>
    rw [compileExclusions]
    obtain ⟨e', he', hc⟩ := h
    rcases List.mem_cons.mp he' with rfl | hmem
    · rw [hc]
    · cases compile e.Pattern with
      | none => rfl
      | some p => rw [ih ⟨e', hmem, hc⟩]; rfl

theorem compileRules_eq_none (compile : String → Option regex)
    (l : List Rule) (h : ∃ r ∈ l, compile r.From = none) :
    compileRules compile l = none := by
  induction l with
  | nil => obtain ⟨r, hr, _⟩ := h; cases hr
  | cons r rest ih =>
    rw [compileRules]
    obtain ⟨r', hr', hc⟩ := h
    rcases List.mem_cons.mp hr' with rfl | hmem
    · rw [hc]
    · cases compile r.From with
      | none => rfl
      | some f => rw [ih ⟨r', hmem, hc⟩]; rfl

theorem mem_mapInsert (m : List (String × ruleset)) (k : String) (v : ruleset)
    (kv : String × ruleset) (h : kv ∈ mapInsert m k v) : kv = (k, v) ∨ kv ∈ m := by
  rcases List.mem_cons.mp h with h' | h'
  · exact Or.inl h'
  · exact Or.inr (List.mem_filter.mp h').1

theorem mem_addTarget_fold (rsCopy : ruleset) :
    ∀ (targets : List Target)
      (acc : List (String × ruleset) × List (String × ruleset))
      (kv : String × ruleset),
      kv ∈ (targets.foldl (addTarget rsCopy) acc).1 ++ (targets.foldl (addTarget rsCopy) acc).2 →
      kv ∈ acc.1 ++ acc.2 ∨ kv.2 = rsCopy := by
  intro targets
  induction targets with
  | nil => intro acc kv h; exact Or.inl h
  | cons target rest ih =>
    intro acc kv h
    rw [List.foldl_cons] at h
    rcases ih (addTarget rsCopy acc target) kv h with h' | h'
    · rw [addTarget] at h'
      split at h'
      · rcases List.mem_append.mp h' with hp | hw
        · exact Or.inl (List.mem_append.mpr (Or.inl hp))
        · rcases mem_mapInsert _ _ _ _ hw with rfl | hw'
          · exact Or.inr rfl
          · exact Or.inl (List.mem_append.mpr (Or.inr hw'))
      · split at h'
        · rcases List.mem_append.mp h' with hp | hw
          · exact Or.inl (List.mem_append.mpr (Or.inl hp))
          · rcases mem_mapInsert _ _ _ _ hw with rfl | hw'
            · exact Or.inr rfl
            · exact Or.inl (List.mem_append.mpr (Or.inr hw'))
        · rcases List.mem_append.mp h' with hp | hw
          · rcases mem_mapInsert _ _ _ _ hp with rfl | hp'
            · exact Or.inr rfl
            · exact Or.inl (List.mem_append.mpr (Or.inl hp'))
          · exact Or.inl (List.mem_append.mpr (Or.inr hw))
    · exact Or.inr h'

/-- Claim C5: a compile failure in any exclusion pattern or any rule
from-pattern makes `addRuleset` leave both indexes unchanged (the record is
discarded whole); and every entry of the output indexes either was already
present or carries the compiled copy of a record all of whose patterns
compiled. -/
theorem ruleset_discarded_whole (compile : String → Option regex) (rs : Ruleset)
    (plains wildcards : List (String × ruleset)) :
    (((∃ e ∈ rs.Exclusion, compile e.Pattern = none) ∨
        (∃ r ∈ rs.Rule, compile r.From = none)) →
      addRuleset compile rs plains wildcards = (plains, wildcards)) ∧
    ∀ kv : String × ruleset,
      kv ∈ (addRuleset compile rs plains wildcards).1 ++
        (addRuleset compile rs plains wildcards).2 →
      kv ∈ plains ++ wildcards ∨
        ∃ excls rules, compileExclusions compile rs.Exclusion = some excls ∧
          compileRules compile rs.Rule = some rules ∧ kv.2 = ruleset.mk excls rules := by
  rw [addRuleset]
  split
  · exact ⟨fun _ => rfl, fun kv h => Or.inl h⟩
  · split
    · exact ⟨fun _ => rfl, fun kv h => Or.inl h⟩
    · cases hE : compileExclusions compile rs.Exclusion with
      | none => exact ⟨fun _ => rfl, fun kv h => Or.inl h⟩
      | some excls =>
        cases hR : compileRules compile rs.Rule with
        | none => exact ⟨fun _ => rfl, fun kv h => Or.inl h⟩
        | some rules =>
          constructor
          · intro hfail
            rcases hfail with hfail | hfail
            · rw [compileExclusions_eq_none compile rs.Exclusion hfail] at hE
              cases hE
            · rw [compileRules_eq_none compile rs.Rule hfail] at hR
              cases hR
          · intro kv h
            rcases mem_addTarget_fold ⟨excls, rules⟩ rs.Target (plains, wildcards) kv h
              with h' | h'
            · exact Or.inl h'
            · exact Or.inr ⟨excls, rules, rfl, rfl, h'⟩

theorem ruleset_discarded_whole_witness :
    addRuleset compileFail rsBadExclusion [] [] = ([], []) :=
  (ruleset_discarded_whole compileFail rsBadExclusion [] []).1
    (Or.inl ⟨⟨"("⟩, List.mem_singleton_self _, rfl⟩)

/-- Claim C6 (counterexample): the current index builder does not skip
rules whose replacement template is exactly the downgrade string.  The
record `rsHttpTo` has one such rule, every pattern compiles, and the
published plain index stores the rule set with that rule in it. -/
theorem http_to_stored_counterexample :
    (addRuleset compileOk rsHttpTo [] []).1.map
        (fun kv => (kv.1, kv.2.rule.map rule.to')) =
      [("downgrade.com", ["http:"])] := by decide

/-- Claim C6 (amended): the index builder applies no filtering based on the
replacement text: when compilation succeeds, every rule of the record —
including rules whose replacement is exactly the downgrade string — is
stored, its replacement only passed through the template normalization. -/
theorem rules_kept_verbatim (compile : String → Option regex)
    (l : List Rule) (rules : List rule)
    (h : compileRules compile l = some rules) :
    rules.map rule.to' = l.map (fun r => normalizeTo r.To) := by
  induction l generalizing rules with
  | nil =>
    rw [compileRules] at h
    cases h
    rfl
  | cons r rest ih =>
    rw [compileRules] at h
    cases hc : compile r.From with
    | none => rw [hc] at h; cases h
    | some f =>
      rw [hc] at h
      cases hrest : compileRules compile rest with
      | none => rw [hrest] at h; cases h
      | some l' =>
        rw [hrest] at h
        cases h
        simp only [List.map_cons]
        rw [ih l' hrest]

theorem rules_kept_verbatim_witness :
    ([⟨regexAll, normalizeTo "http:"⟩] : List rule).map rule.to' =
      rsHttpTo.Rule.map (fun r => normalizeTo r.To) :=
  rules_kept_verbatim compileOk rsHttpTo.Rule [⟨regexAll, normalizeTo "http:"⟩] rfl

/-! ## Length facts about `reverse` -/

theorem copyLoop_length :
    ∀ (src dst : List Char) (n : Nat), (copyLoop src dst n).length = dst.length := by
  intro src
  induction src with
  | nil => intro dst n; rfl
  | cons c rest ih =>
    intro dst n
    rw [copyLoop, ih, List.length_set]

theorem swapIter_length (l : List Char) (i : Nat) :
    (swapIter l i).length = l.length := by
  rw [swapIter, List.length_set, List.length_set]

theorem swapLoop_length (l : List Char) : (swapLoop l).length = l.length := by
  rw [swapLoop]
  generalize List.range (l.length / 2) = L
  induction L generalizing l with
  | nil => rfl
  | cons i L ih =>
    rw [List.foldl_cons, ih, swapIter_length]

theorem reverse_length (s : String) : (reverse s).data.length = s.data.length := by
  rw [reverse]
  simp only [swapLoop_length, List.length_take, copyLoop_length, List.length_drop,
    List.length_set, List.length_replicate]
  omega

/-! ## Prefix facts for the radix lookups -/

theorem isPrefixOf_length_le :
    ∀ (l₁ l₂ : List Char), l₁.isPrefixOf l₂ = true → l₁.length ≤ l₂.length := by
  intro l₁
  induction l₁ with
  | nil => intro l₂ _; exact Nat.zero_le _
  | cons a as ih =>
    intro l₂ h
    cases l₂ with
    | nil => cases h
    | cons b bs =>
      rw [List.isPrefixOf_cons₂] at h
      have := ih bs (Bool.and_elim_right h)
      simp only [List.length_cons]
      omega

theorem isPrefixOf_eq_false_of_longer (l₁ l₂ : List Char)
    (h : l₂.length < l₁.length) : l₁.isPrefixOf l₂ = false := by
  cases hp : l₁.isPrefixOf l₂ with
  | false => rfl
  | true => exact absurd (isPrefixOf_length_le l₁ l₂ hp) (by omega)

theorem longestPrefixLookup_single_miss (key : String) (R : ruleset) (q : String)
    (h : q.data.length < key.data.length) :
    longestPrefixLookup [(key, R)] q = none := by
  rw [longestPrefixLookup, List.filter]
  rw [show (key, R).1.data.isPrefixOf q.data = false from
    isPrefixOf_eq_false_of_longer _ _ h]
  rfl

/-- A query on an engine state with an empty plain index and a single
wildcard entry whose key is strictly longer than both the reversed host and
the host misses every lookup. -/
theorem rewrite_single_wildcard_miss (key : String) (R : ruleset) (u : URL)
    (hu : u.Scheme = "http")
    (h1 : (reverse u.Host).data.length < key.data.length)
    (h2 : u.Host.data.length < key.data.length) :
    rewrite ⟨[], [(key, R)]⟩ u = (("", false), [u.Str]) := by
  rw [rewrite, if_neg (by rw [hu]; exact fun h => h rfl)]
  have h0 : mapFind ([] : List (String × ruleset)) u.Host = none := rfl
  simp only [h0, longestPrefixLookup_single_miss key R (reverse u.Host) h1,
    longestPrefixLookup_single_miss key R u.Host h2]
  rfl

/-- A singleton list is a suffix of an append with non-empty right part
exactly when it is a suffix of the right part (Go HasSuffix with a
one-rune suffix looks only at the last rune). -/
theorem singleton_isSuffixOf_append (a : Char) (l₁ l₂ : List Char) (h : l₂ ≠ []) :
    [a].isSuffixOf (l₁ ++ l₂) = [a].isSuffixOf l₂ := by
  rw [List.isSuffixOf, List.isSuffixOf, List.reverse_append]
  cases hrev : l₂.reverse with
  | nil => exact absurd (List.reverse_eq_nil_iff.mp hrev) h
  | cons c t =>
    rw [List.reverse_singleton, List.cons_append, List.isPrefixOf_cons₂,
      List.isPrefixOf_cons₂]
    simp [List.isPrefixOf]

/-- Claim C10: build the indexes from a single active record whose only
target is the prefix wildcard star-dot-`d`; a rewrite query for an http URL
whose host is exactly `d` returns the empty no-rewrite verdict: the stored
tree key is the reversal of dot-`d` (one rune longer than the host), while
the query strings — the reversed bare host and the bare host — are too
short for that key to be their prefix, whether or not the record compiles. -/
theorem bare_host_misses_wildcard (compile : String → Option regex) (d : String)
    (E : List Exclusion) (RL : List Rule) (u : URL)
    (hd : d.data ≠ []) (hstar : hasSuffixGo d "*" = false)
    (hu1 : u.Scheme = "http") (hu2 : u.Host = d) :
    (rewrite
      ⟨(addRuleset compile ⟨"", "", [⟨String.mk ('*' :: '.' :: d.data)⟩], E, RL⟩ [] []).1,
       (addRuleset compile ⟨"", "", [⟨String.mk ('*' :: '.' :: d.data)⟩], E, RL⟩ [] []).2⟩
      u).1 = ("", false) := by
  rw [addRuleset]
  dsimp only
  rw [if_neg (by decide), if_neg (by decide)]
  cases hE : compileExclusions compile E with
  | none =>
    rw [rewrite, if_neg (by rw [hu1]; exact fun h => h rfl)]
    rfl
  | some excls =>
    cases hR : compileRules compile RL with
    | none =>
      rw [rewrite, if_neg (by rw [hu1]; exact fun h => h rfl)]
      rfl
    | some rules =>
      dsimp only
      have hsuf : isSuffixTarget ⟨String.mk ('*' :: '.' :: d.data)⟩ = false := by
        rw [isSuffixTarget, hasSuffixGo]
        show ("*".data).isSuffixOf (['*', '.'] ++ d.data) = false
        rw [show ("*".data) = ['*'] from rfl,
          singleton_isSuffixOf_append '*' ['*', '.'] d.data hd]
        exact hstar
      have hpre : isPrefixTarget ⟨String.mk ('*' :: '.' :: d.data)⟩ = true := by
        rw [isPrefixTarget, hasPrefixGo]
        show (['*'] : List Char).isPrefixOf ('*' :: '.' :: d.data) = true
        rw [List.isPrefixOf_cons₂]
        rfl
      have htrim : trimPrefixGo (String.mk ('*' :: '.' :: d.data)) "*" =
          String.mk ('.' :: d.data) := by
        rw [trimPrefixGo, if_pos]
        · rfl
        · rw [hasPrefixGo]
          show (['*'] : List Char).isPrefixOf ('*' :: '.' :: d.data) = true
          rw [List.isPrefixOf_cons₂]
          rfl
      rw [List.foldl_cons, List.foldl_nil, addTarget, hsuf, if_neg (by simp),
        hpre, if_pos rfl, htrim]
      have hkeylen : (reverse (String.mk ('.' :: d.data))).data.length =
          d.data.length + 1 := by
        rw [reverse_length]
        rfl
      exact congrArg Prod.fst
        (rewrite_single_wildcard_miss (reverse (String.mk ('.' :: d.data)))
          ⟨excls, rules⟩ u hu1
          (by rw [hkeylen, hu2, reverse_length]; omega)
          (by rw [hkeylen, hu2]; omega))

/-! ## Template-normalization lemmas

The normalization loop replaces each two-rune group reference (a dollar
followed by a digit) with its four-rune braced form.  The key facts: a pass
for one digit removes every occurrence of its own pair, creates no
occurrence of any dollar-digit pair, and a pass over a string with no
occurrence of its pair is the identity. -/

theorem hasPair_cons_of_ne (a b c : Char) (h : (c == a) = false) (l : List Char) :
    hasPair a b (c :: l) = hasPair a b l := by
  cases l with
  | nil => rfl
  | cons y t => rw [hasPair, h, Bool.false_and, Bool.false_or]

theorem hasPair_cons_false (a b c : Char) (l : List Char)
    (h : hasPair a b (c :: l) = false) : hasPair a b l = false := by
  cases l with
  | nil => rfl
  | cons y t =>
    rw [hasPair, Bool.or_eq_false_iff] at h
    exact h.2

theorem goReplace_id_of_no_pair (a b : Char) (r : List Char) :
    ∀ s : List Char, hasPair a b s = false → goReplace [a, b] r s = s := by
  intro s
  induction s with
  | nil => intro _; rfl
  | cons c t ih =>
    intro h
    rw [goReplace_cons, if_neg, ih (hasPair_cons_false a b c t h)]
    intro hcond
    obtain ⟨hp, _⟩ := hcond
    cases t with
    | nil => simp [List.isPrefixOf_cons₂, List.isPrefixOf] at hp
    | cons y t' =>
      simp only [List.isPrefixOf_cons₂, List.isPrefixOf_nil_left, Bool.and_true,
        Bool.and_eq_true, beq_iff_eq] at hp
      rw [hasPair, Bool.or_eq_false_iff, Bool.and_eq_false_iff] at h
      rcases h.1 with h1 | h1
      · rw [beq_eq_false_iff_ne] at h1
        exact h1 hp.1.symm
      · rw [beq_eq_false_iff_ne] at h1
        exact h1 hp.2.symm

theorem goReplace_head (a b r₀ : Char) (r' : List Char) (s : List Char) :
    (goReplace [a, b] (r₀ :: r') s).head? = some r₀ ∨
      (goReplace [a, b] (r₀ :: r') s).head? = s.head? := by
  cases s with
  | nil => exact Or.inr rfl
  | cons c t =>
    rw [goReplace_cons]
    split
    · exact Or.inl (by rw [List.cons_append]; rfl)
    · exact Or.inr rfl

theorem hasPair_goReplace_self (d : Char) (hd1 : d ≠ '{') (hd2 : d ≠ '$') :
    ∀ s : List Char,
      hasPair '$' d (goReplace ['$', d] ('$' :: '{' :: d :: ['}']) s) = false := by
  suffices H : ∀ (n : Nat) (s : List Char), s.length ≤ n →
      hasPair '$' d (goReplace ['$', d] ('$' :: '{' :: d :: ['}']) s) = false by
    intro s
    exact H s.length s (Nat.le_refl _)
  intro n
  induction n with
  | zero =>
    intro s hs
    have hnil : s = [] := List.eq_nil_of_length_eq_zero (Nat.le_zero.mp hs)
    subst hnil
    rfl
  | succ n ih =>
    intro s hs
    cases s with
    | nil => rfl
    | cons c t =>
      rw [goReplace_cons]
      by_cases hcond : (['$', d].isPrefixOf (c :: t) = true ∧
          0 < (['$', d] : List Char).length)
      · rw [if_pos hcond]
        obtain ⟨hp, _⟩ := hcond
        cases t with
        | nil => simp [List.isPrefixOf_cons₂, List.isPrefixOf] at hp
        | cons y t' =>
          simp only [List.isPrefixOf_cons₂, List.isPrefixOf_nil_left, Bool.and_true,
            Bool.and_eq_true, beq_iff_eq] at hp
          obtain ⟨rfl, rfl⟩ := hp
          show hasPair '$' d
            ('$' :: '{' :: d :: '}' :: goReplace ['$', d] ('$' :: '{' :: d :: ['}']) t')
            = false
          have e1 : (('{' : Char) == d) = false := by
            rw [beq_eq_false_iff_ne]
            exact fun hh => hd1 hh.symm
          have e2 : ((d : Char) == '$') = false := by
            rw [beq_eq_false_iff_ne]
            exact hd2
          rw [hasPair, hasPair, hasPair, e1, e2,
            hasPair_cons_of_ne '$' d '}' (by decide)]
          simp only [Bool.and_false, Bool.false_and, Bool.false_or]
          simp only [List.length_cons] at hs
          exact ih t' (by omega)
      · rw [if_neg hcond]
        have hnp : ¬ (['$', d].isPrefixOf (c :: t) = true) :=
          fun hp => hcond ⟨hp, by simp⟩
        have ihg : hasPair '$' d (goReplace ['$', d] ('$' :: '{' :: d :: ['}']) t)
            = false := by
          apply ih
          simp only [List.length_cons] at hs
          omega
        cases hG : goReplace ['$', d] ('$' :: '{' :: d :: ['}']) t with
        | nil => rfl
        | cons g G' =>
          rw [hasPair, Bool.or_eq_false_iff]
          refine ⟨?_, by rw [← hG]; exact ihg⟩
          rcases goReplace_head '$' d '$' ('{' :: d :: ['}']) t with hh | hh
          · rw [hG] at hh
            have hg : g = '$' := by simpa using hh
            subst hg
            have e3 : (('$' : Char) == d) = false := by
              rw [beq_eq_false_iff_ne]
              exact fun hh' => hd2 hh'.symm
            rw [e3, Bool.and_false]
          · rw [hG] at hh
            cases t with
            | nil => exact absurd hh (by simp)
            | cons y t' =>
              have hg : g = y := by simpa using hh
              subst hg
              cases hcg : (c == '$' && g == d) with
              | false => rfl
              | true =>
                rw [Bool.and_eq_true, beq_iff_eq, beq_iff_eq] at hcg
                refine absurd ?_ hnp
                simp [List.isPrefixOf_cons₂, List.isPrefixOf_nil_left, hcg.1, hcg.2]

theorem hasPair_goReplace_other (d e : Char) (hd2 : d ≠ '$') (he1 : e ≠ '{')
    (he2 : e ≠ '$') :
    ∀ s : List Char, hasPair '$' e s = false →
      hasPair '$' e (goReplace ['$', d] ('$' :: '{' :: d :: ['}']) s) = false := by
  suffices H : ∀ (n : Nat) (s : List Char), s.length ≤ n → hasPair '$' e s = false →
      hasPair '$' e (goReplace ['$', d] ('$' :: '{' :: d :: ['}']) s) = false by
    intro s
    exact H s.length s (Nat.le_refl _)
  intro n
  induction n with
  | zero =>
    intro s hs _
    have hnil : s = [] := List.eq_nil_of_length_eq_zero (Nat.le_zero.mp hs)
    subst hnil
    rfl
  | succ n ih =>
    intro s hs h
    cases s with
    | nil => rfl
    | cons c t =>
      rw [goReplace_cons]
      by_cases hcond : (['$', d].isPrefixOf (c :: t) = true ∧
          0 < (['$', d] : List Char).length)
      · rw [if_pos hcond]
        obtain ⟨hp, _⟩ := hcond
        cases t with
        | nil => simp [List.isPrefixOf_cons₂, List.isPrefixOf] at hp
        | cons y t' =>
          simp only [List.isPrefixOf_cons₂, List.isPrefixOf_nil_left, Bool.and_true,
            Bool.and_eq_true, beq_iff_eq] at hp
          obtain ⟨rfl, rfl⟩ := hp
          show hasPair '$' e
            ('$' :: '{' :: d :: '}' :: goReplace ['$', d] ('$' :: '{' :: d :: ['}']) t')
            = false
          have f1 : (('{' : Char) == e) = false := by
            rw [beq_eq_false_iff_ne]
            exact fun hh => he1 hh.symm
          have f2 : ((d : Char) == '$') = false := by
            rw [beq_eq_false_iff_ne]
            exact hd2
          have f3 : (('{' : Char) == '$') = false := by decide
          rw [hasPair, hasPair, hasPair, f1, f2, f3,
            hasPair_cons_of_ne '$' e '}' (by decide)]
          simp only [Bool.and_false, Bool.false_and, Bool.false_or]
          have ht' : hasPair '$' e t' = false := by
            have hdt : hasPair '$' e (d :: t') = false :=
              hasPair_cons_false '$' e '$' (d :: t') h
            rw [hasPair_cons_of_ne '$' e d f2] at hdt
            exact hdt
          simp only [List.length_cons] at hs
          exact ih t' (by omega) ht'
      · rw [if_neg hcond]
        have ihg : hasPair '$' e (goReplace ['$', d] ('$' :: '{' :: d :: ['}']) t)
            = false := by
          apply ih t
          · simp only [List.length_cons] at hs
            omega
          · exact hasPair_cons_false '$' e c t h
        cases hG : goReplace ['$', d] ('$' :: '{' :: d :: ['}']) t with
        | nil => rfl
        | cons g G' =>
          rw [hasPair, Bool.or_eq_false_iff]
          refine ⟨?_, by rw [← hG]; exact ihg⟩
          rcases goReplace_head '$' d '$' ('{' :: d :: ['}']) t with hh | hh
          · rw [hG] at hh
            have hg : g = '$' := by simpa using hh
            subst hg
            have f4 : (('$' : Char) == e) = false := by
              rw [beq_eq_false_iff_ne]
              exact fun hh' => he2 hh'.symm
            rw [f4, Bool.and_false]
          · rw [hG] at hh
            cases t with
            | nil => exact absurd hh (by simp)
            | cons y t' =>
              have hg : g = y := by simpa using hh
              subst hg
              rw [hasPair, Bool.or_eq_false_iff] at h
              exact h.1

theorem digit_pat (i : Nat) (hi : i ∈ List.range' 1 9) :
    dollarPat i = ['$', Nat.digitChar i] ∧
      bracePat i = '$' :: '{' :: Nat.digitChar i :: ['}'] ∧
      Nat.digitChar i ≠ '{' ∧ Nat.digitChar i ≠ '$' := by
  fin_cases hi <;> exact ⟨by decide, by decide, by decide, by decide⟩

theorem fold_preserves_pair (e : Char) (he1 : e ≠ '{') (he2 : e ≠ '$') :
    ∀ (L : List Nat), (∀ i ∈ L, i ∈ List.range' 1 9) →
      ∀ s : List Char, hasPair '$' e s = false →
        hasPair '$' e
          (L.foldl (fun acc i => goReplace (dollarPat i) (bracePat i) acc) s)
          = false := by
  intro L
  induction L with
  | nil => intro _ s h; exact h
  | cons i L' ih =>
    intro hL s h
    rw [List.foldl_cons]
    obtain ⟨hdol, hbra, _, hd2⟩ := digit_pat i (hL i (List.mem_cons_self i L'))
    apply ih (fun j hj => hL j (List.mem_cons_of_mem i hj))
    rw [hdol, hbra]
    exact hasPair_goReplace_other (Nat.digitChar i) e hd2 he1 he2 s h

theorem fold_clears_pair :
    ∀ (L : List Nat), (∀ i ∈ L, i ∈ List.range' 1 9) →
      ∀ (s : List Char) (j : Nat), j ∈ L →
        hasPair '$' (Nat.digitChar j)
          (L.foldl (fun acc i => goReplace (dollarPat i) (bracePat i) acc) s)
          = false := by
  intro L
  induction L with
  | nil => intro _ s j hj; cases hj
  | cons i L' ih =>
    intro hL s j hj
    rw [List.foldl_cons]
    by_cases hjL : j ∈ L'
    · exact ih (fun k hk => hL k (List.mem_cons_of_mem i hk)) _ j hjL
    · have hji : j = i := by
        rcases List.mem_cons.mp hj with h | h
        · exact h
        · exact absurd h hjL
      subst hji
      obtain ⟨hdol, hbra, hd1, hd2⟩ := digit_pat j (hL j (List.mem_cons_self j L'))
      apply fold_preserves_pair (Nat.digitChar j) hd1 hd2 L'
        (fun k hk => hL k (List.mem_cons_of_mem j hk))
      rw [hdol, hbra]
      exact hasPair_goReplace_self (Nat.digitChar j) hd1 hd2 s

theorem fold_id_of_clear :
    ∀ (L : List Nat), (∀ i ∈ L, i ∈ List.range' 1 9) →
      ∀ s : List Char, (∀ j ∈ L, hasPair '$' (Nat.digitChar j) s = false) →
        L.foldl (fun acc i => goReplace (dollarPat i) (bracePat i) acc) s = s := by
  intro L
  induction L with
  | nil => intro _ s _; rfl
  | cons i L' ih =>
    intro hL s hclear
    rw [List.foldl_cons]
    obtain ⟨hdol, hbra, _, _⟩ := digit_pat i (hL i (List.mem_cons_self i L'))
    rw [hdol, hbra, goReplace_id_of_no_pair '$' (Nat.digitChar i) _ s
      (hclear i (List.mem_cons_self i L'))]
    exact ih (fun k hk => hL k (List.mem_cons_of_mem i hk)) s
      (fun j hj => hclear j (List.mem_cons_of_mem i hj))

/-- A rune list with no remaining dollar-digit pair is a fixpoint of the
normalization. -/
theorem normalizeTo_fixpoint (l : List Char)
    (hcl : ∀ j ∈ List.range' 1 9, hasPair '$' (Nat.digitChar j) l = false) :
    normalizeTo (String.mk l) = String.mk l := by
  show String.mk ((List.range' 1 9).foldl
      (fun acc i => goReplace (dollarPat i) (bracePat i) acc)
      (goReplace (dollarPat 1) (bracePat 1) l)) = String.mk l
  have h1 : (1 : Nat) ∈ List.range' 1 9 := by decide
  obtain ⟨hdol, hbra, _, _⟩ := digit_pat 1 h1
  rw [hdol, hbra, goReplace_id_of_no_pair '$' (Nat.digitChar 1) _ l (hcl 1 h1),
    fold_id_of_clear (List.range' 1 9) (fun i hi => hi) l hcl]

/-- Claim C7: the replacement-template normalization is idempotent — after
one run no dollar-digit pair remains, so a second run changes nothing. -/
theorem normalizeTo_idempotent (s : String) :
    normalizeTo (normalizeTo s) = normalizeTo s := by
  have hstep : normalizeTo s = String.mk ((List.range' 1 9).foldl
      (fun acc i => goReplace (dollarPat i) (bracePat i) acc)
      (goReplace (dollarPat 1) (bracePat 1) s.data)) := rfl
  rw [hstep]
  exact normalizeTo_fixpoint _
    (fun j hj => fold_clears_pair (List.range' 1 9) (fun i hi => hi) _ j hj)

theorem bare_host_misses_wildcard_witness :
    (rewrite
      ⟨(addRuleset compileOk ⟨"", "", [⟨String.mk ('*' :: '.' :: "a.com".data)⟩], [], []⟩
          [] []).1,
       (addRuleset compileOk ⟨"", "", [⟨String.mk ('*' :: '.' :: "a.com".data)⟩], [], []⟩
          [] []).2⟩
      ⟨"http", "a.com", "http://a.com"⟩).1 = ("", false) :=
  bare_host_misses_wildcard compileOk "a.com" [] [] ⟨"http", "a.com", "http://a.com"⟩
    (by decide) (by decide) rfl rfl

end Httpse
